import Mathlib

/-!
Verification of the dataset-composition and ensemble-diversity parts of
`robustness_metrics`.

The OOD-detection composition is embedded from
`robustness_metrics/datasets/ood_detection.py`.  Records of a `tf.data`
dataset are string-keyed mappings whose values are either tensors or
further mappings; a dataset additionally carries an `element_spec` of the
same shape with `tf.TensorSpec` leaves.  `tf.data.Dataset.map` traces the
mapped python function once against the element spec (so exceptions such
as `KeyError` that depend only on the field structure fire at the `map`
call), and `tf.data.Dataset.concatenate` requires the two element specs
to agree.  We model those tracing semantics explicitly: `concatenate_ds`
first runs each format function on the corresponding element spec, then
checks the resulting specs for equality, and only then transforms the
records (records are handled eagerly here; laziness of the stream is
captured by the prefix-independence theorem for claim C5).
-/

set_option autoImplicit false

namespace RobustnessMetrics

/-- Numeric arrays (tensors) are modelled as a dtype tag, a shape, and the
entries in row-major order. -/
structure Tensor where
  dtype : String
  shape : List Nat
  data : List ℚ
deriving DecidableEq

/-- What a `tf.TensorSpec` records about a tensor: dtype and shape. -/
structure TensorSpec where
  dtype : String
  shape : List Nat
deriving DecidableEq

/-- Spec of a concrete tensor. -/
def Tensor.spec (t : Tensor) : TensorSpec :=
  { dtype := t.dtype, shape := t.shape }

/-- Embedding of `tf.ones_like`: same dtype and shape, every entry `1`. -/
def tf_ones_like (t : Tensor) : Tensor :=
  { t with data := t.data.map fun _ => 1 }

/-- Embedding of `tf.zeros_like`: same dtype and shape, every entry `0`. -/
def tf_zeros_like (t : Tensor) : Tensor :=
  { t with data := t.data.map fun _ => 0 }

mutual
/-- Values of a `tf.data` element: a tensor-like leaf (the payload `α` is
`Tensor` for records and `TensorSpec` for element specs) or a string-keyed
mapping (python dict) of further values. -/
inductive Tree (α : Type) where
  | leaf (val : α)
  | dict (fields : Fields α)

/-- Fields of a python dict, in insertion order. -/
inductive Fields (α : Type) where
  | nil
  | cons (key : String) (val : Tree α) (rest : Fields α)
end

deriving instance DecidableEq for Tree
deriving instance DecidableEq for Fields

/-- Lookup of a key in a dict, first match wins. -/
def Fields.lookupF {α : Type} : Fields α → String → Option (Tree α)
  | .nil, _ => none
  | .cons k v rest, key => if k = key then some v else rest.lookupF key

/-- Keys of a dict, in order. -/
def Fields.keysF {α : Type} : Fields α → List String
  | .nil => []
  | .cons k _ rest => k :: rest.keysF

/-- Python dict assignment `d[key] = v`: replaces the first binding of
`key` in place, appends at the end if the key is absent. -/
def Fields.updateF {α : Type} : Fields α → String → Tree α → Fields α
  | .nil, key, v => .cons key v .nil
  | .cons k w rest, key, v =>
      if k = key then .cons k v rest else .cons k w (rest.updateF key v)

mutual
/-- Embedding of `_keep_common_fields(feature, spec)` from
`ood_detection.py`: non-dict features are returned verbatim; for dicts,
only the keys also present in `spec` are kept (in `feature`'s field
order — python iterates the key-set intersection, whose order is
immaterial to every claim below), recursing into the values.  A dict
feature meeting a non-dict spec is the python error `spec.keys()` on a
`TensorSpec`, i.e. an `AttributeError`. -/
def keep_common_fields {α β : Type} : Tree α → Tree β → Except String (Tree α)
  | .leaf t, _ => .ok (.leaf t)
  | .dict _, .leaf _ => .error "AttributeError: keys"
  | .dict fs, .dict ss =>
      match keepFields fs ss with
      | .error e => .error e
      | .ok kept => .ok (.dict kept)

/-- Field-list worker of `keep_common_fields`. -/
def keepFields {α β : Type} : Fields α → Fields β → Except String (Fields α)
  | .nil, _ => .ok .nil
  | .cons k v rest, ss =>
      match ss.lookupF k with
      | none => keepFields rest ss
      | some sv =>
          match keep_common_fields v sv with
          | .error e => .error e
          | .ok v' =>
              match keepFields rest ss with
              | .error e => .error e
              | .ok tail => .ok (.cons k v' tail)
end

/-- Embedding of the shared shape of `_set_label_to_one` and
`_set_label_to_zero`: `feature["label"] = like(feature["label"])`.
Reading `feature["label"]` on a record without that key is a python
`KeyError`; indexing a non-dict is a `TypeError`. -/
def set_label_with {α : Type} (like : Tree α → Except String (Tree α)) :
    Tree α → Except String (Tree α)
  | .leaf _ => .error "TypeError: not subscriptable"
  | .dict fs =>
      match fs.lookupF "label" with
      | none => .error "KeyError: label"
      | some v =>
          match like v with
          | .error e => .error e
          | .ok v' => .ok (.dict (fs.updateF "label" v'))

/-- Action of `tf.ones_like` on a record value: defined on tensor leaves,
a `ValueError` on a dict value. -/
def ones_like_value : Tree Tensor → Except String (Tree Tensor)
  | .leaf t => .ok (.leaf (tf_ones_like t))
  | .dict _ => .error "ValueError: ones_like of a mapping"

/-- Action of `tf.zeros_like` on a record value. -/
def zeros_like_value : Tree Tensor → Except String (Tree Tensor)
  | .leaf t => .ok (.leaf (tf_zeros_like t))
  | .dict _ => .error "ValueError: zeros_like of a mapping"

/-- Action of `tf.ones_like` (or `tf.zeros_like`) during function tracing
on a symbolic value described by a spec: shape and dtype are unchanged. -/
def like_spec : Tree TensorSpec → Except String (Tree TensorSpec)
  | .leaf s => .ok (.leaf s)
  | .dict _ => .error "ValueError: ones_like of a mapping"

/-- Embedding of `_set_label_to_one` (the python name carries a leading
underscore). -/
def set_label_to_one : Tree Tensor → Except String (Tree Tensor) :=
  set_label_with ones_like_value

/-- Embedding of `_set_label_to_zero`. -/
def set_label_to_zero : Tree Tensor → Except String (Tree Tensor) :=
  set_label_with zeros_like_value

/-- Tracing of either label-setting function on an element spec. -/
def set_label_trace : Tree TensorSpec → Except String (Tree TensorSpec) :=
  set_label_with like_spec

/-- Record-level `format_in_ds` from `_concatenate`. -/
def format_in_ds (out_spec : Tree TensorSpec) (feature : Tree Tensor) :
    Except String (Tree Tensor) :=
  match set_label_to_one feature with
  | .error e => .error e
  | .ok f => keep_common_fields f out_spec

/-- Record-level `format_out_ds` from `_concatenate`. -/
def format_out_ds (in_spec : Tree TensorSpec) (feature : Tree Tensor) :
    Except String (Tree Tensor) :=
  match set_label_to_zero feature with
  | .error e => .error e
  | .ok f => keep_common_fields f in_spec

/-- Tracing `format_in_ds` on the in-distribution element spec, as
`in_ds.map(format_in_ds)` does. -/
def format_in_trace (in_spec out_spec : Tree TensorSpec) :
    Except String (Tree TensorSpec) :=
  match set_label_trace in_spec with
  | .error e => .error e
  | .ok s => keep_common_fields s out_spec

/-- Tracing `format_out_ds` on the out-of-distribution element spec. -/
def format_out_trace (in_spec out_spec : Tree TensorSpec) :
    Except String (Tree TensorSpec) :=
  match set_label_trace out_spec with
  | .error e => .error e
  | .ok s => keep_common_fields s in_spec

/-- Error-propagating map over the records of a dataset. -/
def mapE {α β : Type} (f : α → Except String β) : List α → Except String (List β)
  | [] => .ok []
  | x :: xs =>
      match f x with
      | .error e => .error e
      | .ok y =>
          match mapE f xs with
          | .error e => .error e
          | .ok ys => .ok (y :: ys)

/-- A loaded `tf.data.Dataset`: an element spec plus the record stream. -/
structure TfDataset where
  elementSpec : Tree TensorSpec
  elems : List (Tree Tensor)
deriving DecidableEq

/-- Embedding of `_concatenate(in_ds, out_ds)`: trace `format_in_ds` on
the in spec, trace `format_out_ds` on the out spec (the two `map`
calls), check that the mapped element specs agree (the `concatenate`
call), then emit the transformed in-distribution records followed by the
transformed out-of-distribution records. -/
def concatenate_ds (in_ds out_ds : TfDataset) : Except String TfDataset :=
  match format_in_trace in_ds.elementSpec out_ds.elementSpec with
  | .error e => .error e
  | .ok in_spec' =>
      match format_out_trace in_ds.elementSpec out_ds.elementSpec with
      | .error e => .error e
      | .ok out_spec' =>
          if in_spec' = out_spec' then
            match mapE (format_in_ds out_ds.elementSpec) in_ds.elems with
            | .error e => .error e
            | .ok ins =>
                match mapE (format_out_ds in_ds.elementSpec) out_ds.elems with
                | .error e => .error e
                | .ok outs => .ok ⟨in_spec', ins ++ outs⟩
          else .error "TypeError: incompatible element specs"

/-- Embedding of `base.DatasetInfo` (only the class count is used). -/
structure DatasetInfo where
  num_classes : Nat
deriving DecidableEq

/-- Embedding of `OodDetectionDataset`: the two abstract properties become
fields holding the already-loaded record sources (`load` of the concrete
sub-datasets, preprocessing included, is external to this module). -/
structure OodDetectionDataset where
  in_dataset : TfDataset
  out_dataset : TfDataset

/-- Embedding of the `info` property of `OodDetectionDataset`. -/
def OodDetectionDataset.info (_d : OodDetectionDataset) : DatasetInfo :=
  { num_classes := 2 }

/-- Embedding of `OodDetectionDataset.load`. -/
def OodDetectionDataset.load (d : OodDetectionDataset) : Except String TfDataset :=
  concatenate_ds d.in_dataset d.out_dataset

/-! ### Field structure (schemas as key trees)

A *schema* in the sense of the specification is the field structure of a
record or element spec: the nesting tree of key names, with the payloads
erased.  `KeyTree` is that structure, `keyOf` computes it. -/

/-- Field structure of a record or spec: the payloads erased. -/
abbrev KeyTree := Tree Unit

mutual
/-- Field structure of a tree. -/
def keyOf {α : Type} : Tree α → KeyTree
  | .leaf _ => .leaf ()
  | .dict fs => .dict (keysOfF fs)

/-- Field structure of a field list. -/
def keysOfF {α : Type} : Fields α → Fields Unit
  | .nil => .nil
  | .cons k v rest => .cons k (keyOf v) (keysOfF rest)
end

mutual
/-- Recursive schema intersection as the specification describes it
(spec.md §3/§8): common keys are kept, recursing into nested mappings; a
path that is a leaf on both sides is kept; a path that is a leaf on one
side and a mapping on the other diverges and is dropped at that depth
(`none` at top level when the two trees diverge outright).  This is the
claim-side definition that the code is compared against. -/
def keyIntersect : KeyTree → KeyTree → Option KeyTree
  | .leaf _, .leaf _ => some (.leaf ())
  | .dict fs, .dict ss => some (.dict (keyIntersectF fs ss))
  | .leaf _, .dict _ => none
  | .dict _, .leaf _ => none

/-- Field-list worker of `keyIntersect`; keys ordered as the left operand. -/
def keyIntersectF : Fields Unit → Fields Unit → Fields Unit
  | .nil, _ => .nil
  | .cons k v rest, ss =>
      match ss.lookupF k with
      | none => keyIntersectF rest ss
      | some sv =>
          match keyIntersect v sv with
          | none => keyIntersectF rest ss
          | some w => .cons k w (keyIntersectF rest ss)
end

mutual
/-- No dict level of the tree repeats a key (python dicts cannot). -/
def nodupK {α : Type} : Tree α → Bool
  | .leaf _ => true
  | .dict fs => nodupKF fs

/-- Field-list worker of `nodupK`. -/
def nodupKF {α : Type} : Fields α → Bool
  | .nil => true
  | .cons k v rest => !(rest.lookupF k).isSome && nodupK v && nodupKF rest
end

/-! ### The ensemble-diversity accumulator

Modelled from the spec: the implementation
(`robustness_metrics/metrics/diversity.py`, class
`AveragePairwiseDiversity`) is not among the provided sources — only its
test `diversity_test.py` is — so the accumulator below follows spec.md
§3 (DiversityState, ProbabilityBatch), §4.2 and §7 word for word.
Probabilities are exact rationals; the transcendental functions `log`
(for the KL contribution) and `sqrt` (for the cosine contribution) are
taken as parameters, since every claim about the accumulator is
independent of their values. -/

namespace Diversity

/-- Index of the largest entry, ties broken by the lowest index
(spec.md §4.2: standard argmax tie-break). -/
def argmaxAux : List ℚ → Nat → Nat → ℚ → Nat
  | [], _, best, _ => best
  | x :: xs, i, best, bv =>
      if bv < x then argmaxAux xs (i + 1) i x else argmaxAux xs (i + 1) best bv

/-- Modelled from the spec: argmax of a probability vector. -/
def argmax : List ℚ → Nat
  | [] => 0
  | x :: xs => argmaxAux xs 1 0 x

/-- Modelled from the spec: per-pair, per-example disagreement
contribution — 1 if the argmaxes differ, else 0. -/
def disagreement_contrib (p q : List ℚ) : ℚ :=
  if argmax p = argmax q then 0 else 1

/-- Modelled from the spec: per-pair, per-example KL contribution
`Σ_c p_c · log(p_c / q_c)` with the convention `0 · log (0 / x) = 0`. -/
def kl_contrib (log : ℚ → ℚ) (p q : List ℚ) : ℚ :=
  (List.zipWith (fun pc qc => if pc = 0 then 0 else pc * log (pc / qc)) p q).sum

/-- Dot product of two probability vectors. -/
def dot (p q : List ℚ) : ℚ := (List.zipWith (· * ·) p q).sum

/-- Modelled from the spec: per-pair, per-example cosine-similarity
contribution `(p·q) / (‖p‖·‖q‖)`, 0 when either norm is zero. -/
def cos_contrib (sqrt : ℚ → ℚ) (p q : List ℚ) : ℚ :=
  let n := sqrt (dot p p) * sqrt (dot q q)
  if n = 0 then 0 else dot p q / n

/-- Modelled from the spec: the DiversityState of §3 — total example
count and, for each unordered pair of ensemble members (listed as
`allPairs numModels`), the accumulated sums of (disagreement count, KL
sum, cosine sum). -/
structure DiversityState where
  numModels : Nat
  count : Nat
  sums : List (ℚ × ℚ × ℚ)
deriving DecidableEq

/-- The `empty` state of the accumulator state machine (spec.md §4.2). -/
def emptyState : DiversityState := ⟨0, 0, []⟩

/-- Unordered pairs `(i, j)`, `i < j < m`, in lexicographic order. -/
def allPairs (m : Nat) : List (Nat × Nat) :=
  (List.range m).flatMap fun i =>
    (List.range m).filterMap fun j => if i < j then some (i, j) else none

/-- A batch is indexed (ensemble member, example, class); member slices
must agree on the example count.  This is the example count. -/
def batchCount (probs : List (List (List ℚ))) : Nat :=
  (probs.headD []).length

/-- Modelled from the spec (§7): the fail-fast sanity checks —
`num_models` matches the leading axis, the batch is a genuine 3-axis
array (equal example counts per member), and every probability vector
sums to exactly 1 (exact rationals stand in for "within tolerance"). -/
def wellFormedBatch (probs : List (List (List ℚ))) (num_models : Nat) : Bool :=
  decide (probs.length = num_models) &&
  probs.all fun mem =>
    decide (mem.length = batchCount probs) && mem.all fun v => decide (v.sum = 1)

/-- This batch's summed contributions for the member pair `ij`. -/
def pairContrib (log sqrt : ℚ → ℚ) (probs : List (List (List ℚ)))
    (ij : Nat × Nat) : ℚ × ℚ × ℚ :=
  let pairs := List.zip (probs.getD ij.1 []) (probs.getD ij.2 [])
  ((pairs.map fun pq => disagreement_contrib pq.1 pq.2).sum,
   (pairs.map fun pq => kl_contrib log pq.1 pq.2).sum,
   (pairs.map fun pq => cos_contrib sqrt pq.1 pq.2).sum)

/-- Componentwise sum of two per-pair statistics triples. -/
def addTriple (a b : ℚ × ℚ × ℚ) : ℚ × ℚ × ℚ :=
  (a.1 + b.1, a.2.1 + b.2.1, a.2.2 + b.2.2)

/-- Modelled from the spec (§4.2): `add_batch(probabilities, num_models)`
fails fast with `InvalidArgument` on `num_models < 2`, on malformed
shapes or probabilities, or on an ensemble size disagreeing with the
state already accumulated; otherwise it adds this batch's per-pair
contributions and example count to the state. -/
def add_batch (log sqrt : ℚ → ℚ) (st : DiversityState)
    (probs : List (List (List ℚ))) (num_models : Nat) :
    Except String DiversityState :=
  if num_models < 2 then .error "InvalidArgument: num_models must be at least 2"
  else if wellFormedBatch probs num_models = false then
    .error "InvalidArgument: malformed probabilities"
  else if st.count ≠ 0 ∧ st.numModels ≠ num_models then
    .error "InvalidArgument: ensemble size changed"
  else
    let base :=
      if st.count = 0 then (allPairs num_models).map fun _ => ((0 : ℚ), (0 : ℚ), (0 : ℚ))
      else st.sums
    .ok { numModels := num_models,
          count := st.count + batchCount probs,
          sums := List.zipWith addTriple base
            ((allPairs num_models).map (pairContrib log sqrt probs)) }

/-- Modelled from the spec (§4.2): `result()` — each metric is the grand
average of its per-(pair, example) contributions, i.e. the accumulated
sum divided by (number of pairs · number of examples); at zero examples
the rational convention `x / 0 = 0` stands in for the undefined
sentinel.  The keys are those asserted by `diversity_test.py`. -/
def result (st : DiversityState) : List (String × ℚ) :=
  let denom : ℚ := (st.sums.length : ℚ) * (st.count : ℚ)
  [("disagreement", (st.sums.map fun s => s.1).sum / denom),
   ("average_kl", (st.sums.map fun s => s.2.1).sum / denom),
   ("cosine_similarity", (st.sums.map fun s => s.2.2).sum / denom)]

/-- Feeding a list of batches one `add_batch` call at a time. -/
def feedBatches (log sqrt : ℚ → ℚ) (m : Nat) (st : DiversityState) :
    List (List (List (List ℚ))) → Except String DiversityState
  | [] => .ok st
  | b :: bs =>
      match add_batch log sqrt st b m with
      | .error e => .error e
      | .ok st' => feedBatches log sqrt m st' bs

/-- Concatenation of two batches along the example axis. -/
def concatBatch (b1 b2 : List (List (List ℚ))) : List (List (List ℚ)) :=
  List.zipWith (· ++ ·) b1 b2

/-- Concatenation of a nonempty list of batches along the example axis. -/
def concatAll : List (List (List (List ℚ))) → List (List (List ℚ))
  | [] => []
  | [b] => b
  | b :: bs => concatBatch b (concatAll bs)

/-- Componentwise sums, over a list of batches, of the per-batch
contributions of the member pair `ij`. -/
def contribSums (log sqrt : ℚ → ℚ) (bs : List (List (List (List ℚ))))
    (ij : Nat × Nat) : ℚ × ℚ × ℚ :=
  ((bs.map fun b => (pairContrib log sqrt b ij).1).sum,
   (bs.map fun b => (pairContrib log sqrt b ij).2.1).sum,
   (bs.map fun b => (pairContrib log sqrt b ij).2.2).sum)

/-- The accumulator state reached after feeding the batches of `bs`. -/
def canonicalState (log sqrt : ℚ → ℚ) (m : Nat)
    (bs : List (List (List (List ℚ)))) : DiversityState :=
  ⟨m, (bs.map batchCount).sum, (allPairs m).map (contribSums log sqrt bs)⟩

end Diversity

/-! ### Concrete sample data used by counterexamples and witnesses -/

namespace Samples

/-- A sample scalar int64 tensor. -/
def tX : Tensor := ⟨"int64", [], [5]⟩

/-- Another sample scalar int64 tensor, used as a label value. -/
def tL : Tensor := ⟨"int64", [], [7]⟩

/-- Spec of a scalar int64 tensor. -/
def sX : TensorSpec := ⟨"int64", []⟩

/-- Scenario of spec.md §8: the in-distribution source's element spec has
fields x and label. -/
def specXL : Tree TensorSpec := .dict (.cons "x" (.leaf sX) (.cons "label" (.leaf sX) .nil))

/-- A record with fields x and label. -/
def recXL : Tree Tensor := .dict (.cons "x" (.leaf tX) (.cons "label" (.leaf tL) .nil))

/-- Scenario of spec.md §8: the out-of-distribution source's element spec
has fields x and y and no label. -/
def specXY : Tree TensorSpec := .dict (.cons "x" (.leaf sX) (.cons "y" (.leaf sX) .nil))

/-- A record with fields x and y and no label. -/
def recXY : Tree Tensor := .dict (.cons "x" (.leaf tX) (.cons "y" (.leaf tX) .nil))

/-- The scenario's in-distribution source: two records with x and label. -/
def dsC1in : TfDataset := ⟨specXL, [recXL, recXL]⟩

/-- The scenario's out-of-distribution source: three records with x and y. -/
def dsC1out : TfDataset := ⟨specXY, [recXY, recXY, recXY]⟩

/-- A source whose top-level fields are a and label. -/
def dsC2in : TfDataset :=
  ⟨.dict (.cons "a" (.leaf sX) (.cons "label" (.leaf sX) .nil)),
   [.dict (.cons "a" (.leaf tX) (.cons "label" (.leaf tL) .nil))]⟩

/-- A source whose only top-level field is b — its schema is disjoint from
`dsC2in`'s. -/
def dsC2out : TfDataset :=
  ⟨.dict (.cons "b" (.leaf sX) .nil), [.dict (.cons "b" (.leaf tX) .nil)]⟩

/-- A record whose field a holds a tensor leaf. -/
def featLeafA : Tree Tensor := .dict (.cons "a" (.leaf tX) .nil)

/-- A spec whose field a holds a nested mapping — it diverges from
`featLeafA` at field a. -/
def specDictA : Tree TensorSpec :=
  .dict (.cons "a" (.dict (.cons "b" (.leaf sX) .nil)) .nil)

/-- An in-distribution source for the successful composition: fields x
and label on both sides. -/
def dsOkIn : TfDataset := ⟨specXL, [recXL]⟩

/-- An out-of-distribution source for the successful composition. -/
def dsOkOut : TfDataset := ⟨specXL, [recXL]⟩

/-- The composed record of the in-distribution side: label overwritten
with ones. -/
def recOne : Tree Tensor :=
  .dict (.cons "x" (.leaf tX) (.cons "label" (.leaf ⟨"int64", [], [1]⟩) .nil))

/-- The composed record of the out-of-distribution side: label
overwritten with zeros. -/
def recZero : Tree Tensor :=
  .dict (.cons "x" (.leaf tX) (.cons "label" (.leaf ⟨"int64", [], [0]⟩) .nil))

/-- The composition of `dsOkIn` and `dsOkOut`. -/
def dsOkComposed : TfDataset := ⟨specXL, [recOne, recZero]⟩

end Samples

/-! ### Basic lemmas on fields, labels and `mapE` -/

theorem lookupF_updateF_self {α : Type} :
    ∀ (fs : Fields α) (k : String) (v v' : Tree α),
      fs.lookupF k = some v → (fs.updateF k v').lookupF k = some v'
  | .nil, k, v, v', h => by simp [Fields.lookupF] at h
  | .cons k0 w rest, k, v, v', h => by
      by_cases hk : k0 = k
      · subst hk; simp [Fields.updateF, Fields.lookupF]
      · simp [Fields.lookupF, hk] at h
        simp [Fields.updateF, Fields.lookupF, hk,
          lookupF_updateF_self rest k v v' h]

theorem lookupF_updateF_ne {α : Type} :
    ∀ (fs : Fields α) (k k' : String) (v' : Tree α), k' ≠ k →
      (fs.updateF k v').lookupF k' = fs.lookupF k'
  | .nil, k, k', v', h => by
      have h' : ¬k = k' := fun hh => h hh.symm
      simp [Fields.updateF, Fields.lookupF, h']
  | .cons k0 w rest, k, k', v', h => by
      by_cases hk : k0 = k
      · subst hk
        have h' : ¬k0 = k' := fun hh => h hh.symm
        simp [Fields.updateF, Fields.lookupF, h']
      · simp [Fields.updateF, Fields.lookupF, hk]
        split <;> simp [lookupF_updateF_ne rest k k' v' h]

theorem lookupF_keysOfF {α : Type} :
    ∀ (fs : Fields α) (k : String),
      (keysOfF fs).lookupF k = (fs.lookupF k).map keyOf
  | .nil, k => by simp [keysOfF, Fields.lookupF]
  | .cons k0 v rest, k => by
      by_cases hk : k0 = k <;>
        simp [keysOfF, Fields.lookupF, hk, lookupF_keysOfF rest k]

theorem keysOfF_updateF {α : Type} :
    ∀ (fs : Fields α) (k : String) (v v' : Tree α),
      fs.lookupF k = some v → keyOf v' = keyOf v →
      keysOfF (fs.updateF k v') = keysOfF fs
  | .nil, k, v, v', hv, hkey => by simp [Fields.lookupF] at hv
  | .cons k0 w rest, k, v, v', hv, hkey => by
      by_cases hk : k0 = k
      · subst hk
        simp [Fields.lookupF] at hv
        simp [Fields.updateF, keysOfF, hkey, hv]
      · simp [Fields.lookupF, hk] at hv
        simp [Fields.updateF, keysOfF, hk, keysOfF_updateF rest k v v' hv hkey]

/-- Inversion of a successful `set_label_with`. -/
theorem set_label_with_ok {α : Type} (like : Tree α → Except String (Tree α))
    (f f' : Tree α) (h : set_label_with like f = .ok f') :
    ∃ fs v v', f = .dict fs ∧ fs.lookupF "label" = some v ∧ like v = .ok v' ∧
      f' = .dict (fs.updateF "label" v') := by
  cases f with
  | leaf t => simp [set_label_with] at h
  | dict fs =>
      cases hv : fs.lookupF "label" with
      | none => simp [set_label_with, hv] at h
      | some v =>
          cases hl : like v with
          | error e => simp [set_label_with, hv, hl] at h
          | ok v' =>
              refine ⟨fs, v, v', rfl, hv, hl, ?_⟩
              simp [set_label_with, hv, hl] at h
              exact h.symm

/-- Successful label overwriting never changes the field structure, as
long as the leaf action preserves it. -/
theorem set_label_with_keyOf {α : Type} (like : Tree α → Except String (Tree α))
    (hlike : ∀ v v', like v = .ok v' → keyOf v' = keyOf v)
    (f f' : Tree α) (h : set_label_with like f = .ok f') : keyOf f' = keyOf f := by
  obtain ⟨fs, v, v', rfl, hv, hl, rfl⟩ := set_label_with_ok like f f' h
  simp [keyOf, keysOfF_updateF fs "label" v v' hv (hlike v v' hl)]

theorem ones_like_value_keyOf (v v' : Tree Tensor) (h : ones_like_value v = .ok v') :
    keyOf v' = keyOf v := by
  cases v with
  | leaf t => simp [ones_like_value] at h; subst h; rfl
  | dict fs => simp [ones_like_value] at h

theorem zeros_like_value_keyOf (v v' : Tree Tensor) (h : zeros_like_value v = .ok v') :
    keyOf v' = keyOf v := by
  cases v with
  | leaf t => simp [zeros_like_value] at h; subst h; rfl
  | dict fs => simp [zeros_like_value] at h

theorem like_spec_keyOf (v v' : Tree TensorSpec) (h : like_spec v = .ok v') :
    keyOf v' = keyOf v := by
  cases v with
  | leaf t => simp [like_spec] at h; subst h; rfl
  | dict fs => simp [like_spec] at h

/-- Successful `mapE` is pointwise success, in order. -/
theorem mapE_ok_forall2 {α β : Type} (f : α → Except String β) (l : List α)
    (l' : List β) (h : mapE f l = .ok l') :
    List.Forall₂ (fun a b => f a = .ok b) l l' := by
  induction l generalizing l' with
  | nil =>
      simp [mapE] at h
      subst h; exact .nil
  | cons x xs ih =>
      cases hx : f x with
      | error e => simp [mapE, hx] at h
      | ok y =>
          cases hxs : mapE f xs with
          | error e => simp [mapE, hx, hxs] at h
          | ok ys =>
              simp [mapE, hx, hxs] at h
              subst h
              exact .cons hx (ih ys hxs)

theorem mapE_ok_length {α β : Type} (f : α → Except String β) (l : List α)
    (l' : List β) (h : mapE f l = .ok l') : l'.length = l.length :=
  (mapE_ok_forall2 f l l' h).length_eq.symm

theorem mapE_ok_mem {α β : Type} (f : α → Except String β) (l : List α)
    (l' : List β) (h : mapE f l = .ok l') (b : β) (hb : b ∈ l') :
    ∃ a ∈ l, f a = .ok b := by
  have h2 := mapE_ok_forall2 f l l' h
  clear h
  induction h2 with
  | nil => simp at hb
  | cons hfa _ ih =>
      rcases List.mem_cons.mp hb with rfl | hb'
      · exact ⟨_, List.mem_cons_self .., hfa⟩
      · obtain ⟨a, ha, hfa'⟩ := ih hb'
        exact ⟨a, List.mem_cons_of_mem _ ha, hfa'⟩

mutual
/-- Filtering fields commutes with erasing the payloads: the outcome of
`keep_common_fields` (success and field structure alike) depends only on
the field structures of its arguments. -/
theorem keep_keyOf {α β : Type} : ∀ (v : Tree α) (t : Tree β),
    keep_common_fields (keyOf v) (keyOf t) =
      Except.map keyOf (keep_common_fields v t)
  | .leaf a, t => by simp [keep_common_fields, keyOf, Except.map]
  | .dict fs, .leaf b => by simp [keep_common_fields, keyOf, Except.map]
  | .dict fs, .dict ss =>
      have ih := keepF_keyOf fs ss
      by
        cases h : keepFields fs ss with
        | error e => simp [keep_common_fields, keyOf, ih, h, Except.map]
        | ok kept => simp [keep_common_fields, keyOf, ih, h, Except.map]

/-- Field-list version of `keep_keyOf`. -/
theorem keepF_keyOf {α β : Type} : ∀ (fs : Fields α) (ss : Fields β),
    keepFields (keysOfF fs) (keysOfF ss) =
      Except.map keysOfF (keepFields fs ss)
  | .nil, ss => by simp [keepFields, keysOfF, Except.map]
  | .cons k v rest, ss =>
      have ihr := keepF_keyOf rest ss
      match hs : ss.lookupF k with
      | none => by
          simp [keepFields, keysOfF, lookupF_keysOfF, hs, ihr]
      | some sv =>
          have ihv := keep_keyOf v sv
          by
            cases hv : keep_common_fields v sv with
            | error e =>
                simp [keepFields, keysOfF, lookupF_keysOfF, hs, ihv, hv,
                  Except.map]
            | ok v' =>
                cases hr : keepFields rest ss with
                | error e =>
                    simp [keepFields, keysOfF, lookupF_keysOfF, hs, ihv, hv,
                      ihr, hr, Except.map]
                | ok tail =>
                    simp [keepFields, keysOfF, lookupF_keysOfF, hs, ihv, hv,
                      ihr, hr, Except.map]
end

/-- Reading a successful filtering backwards: for every key common to
the two field lists, filtering the associated values succeeded. -/
theorem keepF_lookup_ok {α β : Type} :
    ∀ (ss : Fields α) (fs : Fields β) (d : Fields α) (k : String)
      (sv : Tree α) (v : Tree β),
      keepFields ss fs = .ok d → ss.lookupF k = some sv →
      fs.lookupF k = some v → ∃ w, keep_common_fields sv v = .ok w
  | .nil, fs, d, k, sv, v, hok, hsv, hv => by simp [Fields.lookupF] at hsv
  | .cons k0 sv0 rest, fs, d, k, sv, v, hok, hsv, hv => by
      simp only [keepFields] at hok
      by_cases hk : k0 = k
      · subst hk
        simp [Fields.lookupF] at hsv
        rw [← hsv]
        simp only [hv] at hok
        cases hw : keep_common_fields sv0 v with
        | error e => simp [hw] at hok
        | ok w => exact ⟨w, rfl⟩
      · simp only [Fields.lookupF, if_neg hk] at hsv
        cases h0 : fs.lookupF k0 with
        | none =>
            simp only [h0] at hok
            exact keepF_lookup_ok rest fs d k sv v hok hsv hv
        | some v0 =>
            simp only [h0] at hok
            cases hw0 : keep_common_fields sv0 v0 with
            | error e => simp [hw0] at hok
            | ok w0 =>
                simp only [hw0] at hok
                cases hr : keepFields rest fs with
                | error e => simp [hr] at hok
                | ok tail =>
                    exact keepF_lookup_ok rest fs tail k sv v hr hsv hv

/-- Filtering preserves the entry at every key common to both sides:
looking the key up in the result finds the filtered value. -/
theorem keepF_lookup {α β : Type} :
    ∀ (fs : Fields α) (ss : Fields β) (kept : Fields α) (k : String)
      (v : Tree α) (sv : Tree β),
      keepFields fs ss = .ok kept → fs.lookupF k = some v →
      ss.lookupF k = some sv →
      ∃ v', keep_common_fields v sv = .ok v' ∧ kept.lookupF k = some v'
  | .nil, ss, kept, k, v, sv, hok, hv, hsv => by simp [Fields.lookupF] at hv
  | .cons k0 v0 rest, ss, kept, k, v, sv, hok, hv, hsv => by
      simp only [keepFields] at hok
      by_cases hk : k0 = k
      · subst hk
        simp [Fields.lookupF] at hv
        rw [← hv]
        simp only [hsv] at hok
        cases hw : keep_common_fields v0 sv with
        | error e => simp [hw] at hok
        | ok v' =>
            simp only [hw] at hok
            cases hr : keepFields rest ss with
            | error e => simp [hr] at hok
            | ok tail =>
                simp only [hr, Except.ok.injEq] at hok
                subst hok
                exact ⟨v', rfl, by simp [Fields.lookupF]⟩
      · simp only [Fields.lookupF, if_neg hk] at hv
        cases h0 : ss.lookupF k0 with
        | none =>
            simp only [h0] at hok
            exact keepF_lookup rest ss kept k v sv hok hv hsv
        | some sv0 =>
            simp only [h0] at hok
            cases hw0 : keep_common_fields v0 sv0 with
            | error e => simp [hw0] at hok
            | ok v0' =>
                simp only [hw0] at hok
                cases hr : keepFields rest ss with
                | error e => simp [hr] at hok
                | ok tail =>
                    simp only [hr, Except.ok.injEq] at hok
                    subst hok
                    obtain ⟨v', hkv, htl⟩ :=
                      keepF_lookup rest ss tail k v sv hr hv hsv
                    exact ⟨v', hkv, by simp [Fields.lookupF, hk, htl]⟩

mutual
/-- When filtering succeeds in both directions (as a successful
composition forces), the code's `_keep_common_fields` computes exactly
the recursive schema intersection that the specification describes. -/
theorem keep_intersect :
    ∀ (a b c : KeyTree), nodupK a = true → keep_common_fields a b = .ok c →
      (∃ d, keep_common_fields b a = .ok d) → keyIntersect a b = some c
  | .leaf u, .leaf u', c, hnd, hok, hrev => by
      simp [keep_common_fields] at hok
      subst hok
      rfl
  | .leaf u, .dict ss, c, hnd, hok, hrev => by
      obtain ⟨d, hd⟩ := hrev
      simp [keep_common_fields] at hd
  | .dict fs, .leaf u, c, hnd, hok, hrev => by
      simp [keep_common_fields] at hok
  | .dict fs, .dict ss, c, hnd, hok, hrev =>
      by
        obtain ⟨d, hd⟩ := hrev
        simp only [keep_common_fields] at hok hd
        cases hkf : keepFields fs ss with
        | error e => simp [hkf] at hok
        | ok kept =>
            simp only [hkf, Except.ok.injEq] at hok
            subst hok
            cases hkr : keepFields ss fs with
            | error e => simp [hkr] at hd
            | ok d' =>
                have hpt : ∀ (k : String) (v sv : KeyTree),
                    fs.lookupF k = some v → ss.lookupF k = some sv →
                    ∃ w, keep_common_fields sv v = .ok w := by
                  intro k v sv hv hsv
                  exact keepF_lookup_ok ss fs d' k sv v hkr hsv hv
                have hndf : nodupKF fs = true := by
                  rw [nodupK] at hnd; exact hnd
                rw [keyIntersect, keepF_intersect fs ss kept hndf hkf hpt]

/-- Field-list version of `keep_intersect`. -/
theorem keepF_intersect :
    ∀ (fs ss : Fields Unit) (kept : Fields Unit), nodupKF fs = true →
      keepFields fs ss = .ok kept →
      (∀ (k : String) (v sv : KeyTree), fs.lookupF k = some v →
        ss.lookupF k = some sv → ∃ w, keep_common_fields sv v = .ok w) →
      keyIntersectF fs ss = kept
  | .nil, ss, kept, hnd, hok, hpt => by
      simp [keepFields] at hok
      subst hok
      rfl
  | .cons k v rest, ss, kept, hnd, hok, hpt =>
      by
        rw [nodupKF] at hnd
        simp only [Bool.and_eq_true, Bool.not_eq_true'] at hnd
        obtain ⟨⟨hknew, hndv⟩, hndr⟩ := hnd
        have hrest : ∀ (k' : String) (v' sv' : KeyTree),
            rest.lookupF k' = some v' → ss.lookupF k' = some sv' →
            ∃ w, keep_common_fields sv' v' = .ok w := by
          intro k' v' sv' hv' hsv'
          have hne : ¬k = k' := by
            intro hkk
            subst hkk
            rw [hv'] at hknew
            simp at hknew
          exact hpt k' v' sv' (by simp [Fields.lookupF, hne, hv']) hsv'
        simp only [keepFields] at hok
        cases hs : ss.lookupF k with
        | none =>
            simp only [hs] at hok
            rw [keyIntersectF, hs]
            exact keepF_intersect rest ss kept hndr hok hrest
        | some sv =>
            simp only [hs] at hok
            cases hv : keep_common_fields v sv with
            | error e => simp [hv] at hok
            | ok v' =>
                simp only [hv] at hok
                cases hr : keepFields rest ss with
                | error e => simp [hr] at hok
                | ok tail =>
                    simp only [hr, Except.ok.injEq] at hok
                    subst hok
                    have hrev : ∃ w, keep_common_fields sv v = .ok w :=
                      hpt k v sv (by simp [Fields.lookupF]) hs
                    simp only [keyIntersectF, hs,
                      keep_intersect v sv v' hndv hv hrev,
                      keepF_intersect rest ss tail hndr hr hrest]
end

mutual
/-- Nodup of keys is a property of the field structure only. -/
theorem nodupK_keyOf {α : Type} : ∀ (v : Tree α), nodupK (keyOf v) = nodupK v
  | .leaf a => by simp [keyOf, nodupK]
  | .dict fs =>
      have ih := nodupKF_keysOfF fs
      by simp [keyOf, nodupK, ih]

/-- Field-list version of `nodupK_keyOf`. -/
theorem nodupKF_keysOfF {α : Type} :
    ∀ (fs : Fields α), nodupKF (keysOfF fs) = nodupKF fs
  | .nil => by simp [keysOfF, nodupKF]
  | .cons k v rest =>
      have ih1 := nodupK_keyOf v
      have ih2 := nodupKF_keysOfF rest
      by simp [keysOfF, nodupKF, ih1, ih2, lookupF_keysOfF]
end

/-- Inversion of a successful `concatenate_ds`. -/
theorem concatenate_ds_ok (A B D : TfDataset) (h : concatenate_ds A B = .ok D) :
    ∃ spec' ins outs,
      format_in_trace A.elementSpec B.elementSpec = .ok spec' ∧
      format_out_trace A.elementSpec B.elementSpec = .ok spec' ∧
      mapE (format_in_ds B.elementSpec) A.elems = .ok ins ∧
      mapE (format_out_ds A.elementSpec) B.elems = .ok outs ∧
      D = ⟨spec', ins ++ outs⟩ := by
  cases h1 : format_in_trace A.elementSpec B.elementSpec with
  | error e => simp [concatenate_ds, h1] at h
  | ok sIn =>
      cases h2 : format_out_trace A.elementSpec B.elementSpec with
      | error e => simp [concatenate_ds, h1, h2] at h
      | ok sOut =>
          by_cases heq : sIn = sOut
          · subst heq
            cases h3 : mapE (format_in_ds B.elementSpec) A.elems with
            | error e => simp [concatenate_ds, h1, h2, h3] at h
            | ok ins =>
                cases h4 : mapE (format_out_ds A.elementSpec) B.elems with
                | error e => simp [concatenate_ds, h1, h2, h3, h4] at h
                | ok outs =>
                    simp [concatenate_ds, h1, h2, h3, h4] at h
                    exact ⟨sIn, ins, outs, rfl, rfl, rfl, rfl, h.symm⟩
          · simp [concatenate_ds, h1, h2, heq] at h

/-- Error propagation: a failing in-side trace fails the composition. -/
theorem concatenate_ds_error_in (A B : TfDataset) (e : String)
    (h : format_in_trace A.elementSpec B.elementSpec = .error e) :
    concatenate_ds A B = .error e := by
  simp [concatenate_ds, h]

/-- Error propagation: a failing out-side trace fails the composition. -/
theorem concatenate_ds_error_out (A B : TfDataset) (s : Tree TensorSpec)
    (e : String) (h1 : format_in_trace A.elementSpec B.elementSpec = .ok s)
    (h2 : format_out_trace A.elementSpec B.elementSpec = .error e) :
    concatenate_ds A B = .error e := by
  simp [concatenate_ds, h1, h2]

/-- Inversion of a successful `format_in_trace`. -/
theorem format_in_trace_ok (iSpec oSpec s' : Tree TensorSpec)
    (h : format_in_trace iSpec oSpec = .ok s') :
    ∃ s1, set_label_trace iSpec = .ok s1 ∧ keep_common_fields s1 oSpec = .ok s' := by
  cases h1 : set_label_trace iSpec with
  | error e => simp [format_in_trace, h1] at h
  | ok s1 =>
      rw [format_in_trace, h1] at h
      exact ⟨s1, rfl, h⟩

/-- Inversion of a successful `format_out_trace`. -/
theorem format_out_trace_ok (iSpec oSpec s' : Tree TensorSpec)
    (h : format_out_trace iSpec oSpec = .ok s') :
    ∃ s2, set_label_trace oSpec = .ok s2 ∧ keep_common_fields s2 iSpec = .ok s' := by
  cases h1 : set_label_trace oSpec with
  | error e => simp [format_out_trace, h1] at h
  | ok s2 =>
      rw [format_out_trace, h1] at h
      exact ⟨s2, rfl, h⟩

/-- Inversion of a successful record-level `format_in_ds`. -/
theorem format_in_ds_ok (oSpec : Tree TensorSpec) (f r : Tree Tensor)
    (h : format_in_ds oSpec f = .ok r) :
    ∃ f1, set_label_to_one f = .ok f1 ∧ keep_common_fields f1 oSpec = .ok r := by
  cases h1 : set_label_to_one f with
  | error e => simp [format_in_ds, h1] at h
  | ok f1 =>
      rw [format_in_ds, h1] at h
      exact ⟨f1, rfl, h⟩

/-- Inversion of a successful record-level `format_out_ds`. -/
theorem format_out_ds_ok (iSpec : Tree TensorSpec) (f r : Tree Tensor)
    (h : format_out_ds iSpec f = .ok r) :
    ∃ f1, set_label_to_zero f = .ok f1 ∧ keep_common_fields f1 iSpec = .ok r := by
  cases h1 : set_label_to_zero f with
  | error e => simp [format_out_ds, h1] at h
  | ok f1 =>
      rw [format_out_ds, h1] at h
      exact ⟨f1, rfl, h⟩

/-- Inversion of a successful `set_label_trace`: the spec is a mapping
that already carries a tensor-valued `label` entry, which is kept as is. -/
theorem set_label_trace_ok (s s' : Tree TensorSpec)
    (h : set_label_trace s = .ok s') :
    ∃ fs sv, s = .dict fs ∧ fs.lookupF "label" = some (.leaf sv) ∧
      s' = .dict (fs.updateF "label" (.leaf sv)) := by
  obtain ⟨fs, v, v', rfl, hv, hl, rfl⟩ :=
    set_label_with_ok like_spec s s' h
  cases v with
  | leaf sv =>
      simp [like_spec] at hl
      exact ⟨fs, sv, rfl, hv, by rw [hl]⟩
  | dict _ => simp [like_spec] at hl

/-- Inversion of a successful `set_label_to_one`: the record is a mapping
carrying a tensor-valued `label` entry, which is overwritten with ones. -/
theorem set_label_to_one_ok (f f' : Tree Tensor)
    (h : set_label_to_one f = .ok f') :
    ∃ fs t, f = .dict fs ∧ fs.lookupF "label" = some (.leaf t) ∧
      f' = .dict (fs.updateF "label" (.leaf (tf_ones_like t))) := by
  obtain ⟨fs, v, v', rfl, hv, hl, rfl⟩ :=
    set_label_with_ok ones_like_value f f' h
  cases v with
  | leaf t =>
      simp [ones_like_value] at hl
      exact ⟨fs, t, rfl, hv, by rw [hl]⟩
  | dict _ => simp [ones_like_value] at hl

/-- Inversion of a successful `set_label_to_zero`. -/
theorem set_label_to_zero_ok (f f' : Tree Tensor)
    (h : set_label_to_zero f = .ok f') :
    ∃ fs t, f = .dict fs ∧ fs.lookupF "label" = some (.leaf t) ∧
      f' = .dict (fs.updateF "label" (.leaf (tf_zeros_like t))) := by
  obtain ⟨fs, v, v', rfl, hv, hl, rfl⟩ :=
    set_label_with_ok zeros_like_value f f' h
  cases v with
  | leaf t =>
      simp [zeros_like_value] at hl
      exact ⟨fs, t, rfl, hv, by rw [hl]⟩
  | dict _ => simp [zeros_like_value] at hl

/-- Lookup succeeds exactly on the keys of the dict. -/
theorem lookupF_isSome_iff_keysF {α : Type} :
    ∀ (fs : Fields α) (k : String),
      (fs.lookupF k).isSome = true ↔ k ∈ fs.keysF
  | .nil, k => by simp [Fields.lookupF, Fields.keysF]
  | .cons k0 v rest, k => by
      by_cases hk : k0 = k
      · subst hk; simp [Fields.lookupF, Fields.keysF]
      · have hk' : ¬k = k0 := fun h => hk h.symm
        simp [Fields.lookupF, Fields.keysF, hk, hk',
          lookupF_isSome_iff_keysF rest k]

/-! ### Claim theorems -/

/-- C1, counterexample: on the spec's own scenario — in-distribution
source with 2 records of fields x and label, out-of-distribution source
with 3 records of fields x and y and no label — composition does not
succeed with 5 records: it raises `KeyError` because
`_set_label_to_zero` reads `feature["label"]`, which does not exist.
The label is never synthesized. -/
theorem c1_label_not_synthesized_cex :
    concatenate_ds Samples.dsC1in Samples.dsC1out = .error "KeyError: label" := rfl

/-- C1 (amended): composition does not synthesize a missing `label`
field — it requires both sources' element specs to be mappings that
already carry a tensor-valued `label` entry (which the composition then
overwrites); whenever `_concatenate` succeeds, both sides had `label`. -/
theorem c1_label_must_preexist (A B D : TfDataset)
    (h : concatenate_ds A B = .ok D) :
    (∃ fsa sa, A.elementSpec = .dict fsa ∧
        fsa.lookupF "label" = some (.leaf sa)) ∧
    (∃ fsb sb, B.elementSpec = .dict fsb ∧
        fsb.lookupF "label" = some (.leaf sb)) := by
  obtain ⟨spec', ins, outs, h1, h2, h3, h4, hD⟩ := concatenate_ds_ok A B D h
  obtain ⟨s1, hs1, hk1⟩ := format_in_trace_ok _ _ _ h1
  obtain ⟨s2, hs2, hk2⟩ := format_out_trace_ok _ _ _ h2
  obtain ⟨fsa, sa, ha, hla, hs1'⟩ := set_label_trace_ok _ _ hs1
  obtain ⟨fsb, sb, hb, hlb, hs2'⟩ := set_label_trace_ok _ _ hs2
  exact ⟨⟨fsa, sa, ha, hla⟩, ⟨fsb, sb, hb, hlb⟩⟩

/-- C1, witness for the amended theorem, at a successful composition. -/
theorem c1_label_must_preexist_witness :
    (∃ fsa sa, Samples.dsOkIn.elementSpec = .dict fsa ∧
        fsa.lookupF "label" = some (.leaf sa)) ∧
    (∃ fsb sb, Samples.dsOkOut.elementSpec = .dict fsb ∧
        fsb.lookupF "label" = some (.leaf sb)) :=
  c1_label_must_preexist Samples.dsOkIn Samples.dsOkOut Samples.dsOkComposed rfl

/-- C2, counterexample: two sources with disjoint top-level schemas
(fields a and label versus field b).  Composition does fail
synchronously, but with a `KeyError` on the missing `label` field — the
code contains no `SchemaMismatch` check at all. -/
theorem c2_no_schema_mismatch_cex :
    concatenate_ds Samples.dsC2in Samples.dsC2out = .error "KeyError: label" := rfl

/-- C2 (amended): for sources whose top-level schemas share no field
name, composition fails synchronously at the map call that detects it
(so it never returns a stream of empty records), but the failure is a
`KeyError` about the missing `label` field — at least one of two
disjoint schemas lacks `label` — not a `SchemaMismatch` error, which the
code never raises. -/
theorem c2_empty_intersection_fails (A B : TfDataset)
    (fsa fsb : Fields TensorSpec)
    (ha : A.elementSpec = .dict fsa) (hb : B.elementSpec = .dict fsb)
    (hdisj : ∀ k ∈ fsa.keysF, k ∉ fsb.keysF) :
    ∃ e, concatenate_ds A B = .error e := by
  cases hla : fsa.lookupF "label" with
  | none =>
      refine ⟨"KeyError: label", concatenate_ds_error_in A B _ ?_⟩
      rw [ha]
      simp [format_in_trace, set_label_trace, set_label_with, hla]
  | some v =>
      have hmem : "label" ∈ fsa.keysF :=
        (lookupF_isSome_iff_keysF fsa "label").mp (by simp [hla])
      have hnb : ¬"label" ∈ fsb.keysF := hdisj "label" hmem
      have hlb : fsb.lookupF "label" = none := by
        cases hh : fsb.lookupF "label" with
        | none => rfl
        | some w =>
            exact absurd ((lookupF_isSome_iff_keysF fsb "label").mp
              (by simp [hh])) hnb
      have hout : format_out_trace A.elementSpec B.elementSpec =
          .error "KeyError: label" := by
        rw [hb]
        simp [format_out_trace, set_label_trace, set_label_with, hlb]
      cases hin : format_in_trace A.elementSpec B.elementSpec with
      | error e => exact ⟨e, concatenate_ds_error_in A B e hin⟩
      | ok s =>
          exact ⟨"KeyError: label", concatenate_ds_error_out A B s _ hin hout⟩

/-- C2, witness for the amended theorem at the disjoint sample pair. -/
theorem c2_empty_intersection_fails_witness :
    ∃ e, concatenate_ds Samples.dsC2in Samples.dsC2out = .error e :=
  c2_empty_intersection_fails Samples.dsC2in Samples.dsC2out _ _ rfl rfl
    (by decide)

/-- C4, counterexample: a record whose field a is a tensor leaf, filtered
against a spec whose field a is a nested mapping.  The spec says the
divergent field is dropped; `_keep_common_fields` instead returns the
leaf verbatim, so the whole field survives. -/
theorem c4_divergent_field_kept_cex :
    keep_common_fields Samples.featLeafA Samples.specDictA =
      .ok Samples.featLeafA ∧
    Samples.featLeafA ≠ Tree.dict Fields.nil := ⟨rfl, by decide⟩

/-- C4 (amended): at a key where the two sides diverge between a leaf
and a nested mapping, `_keep_common_fields` does not drop the field:
when the record side is the leaf, the leaf is kept verbatim; when the
record side is the mapping (and the spec side the leaf), it fails with
an `AttributeError` instead.  Consequently a full composition with such
a divergence fails (one of the two traced map functions hits the
`AttributeError` case), so no composed record ever exists there. -/
theorem c4_divergence_not_dropped (k : String) (t : Tensor)
    (ss : Fields TensorSpec) (fs : Fields Tensor) (s : TensorSpec) :
    keep_common_fields (Tree.dict (.cons k (.leaf t) .nil))
        (Tree.dict (.cons k (.dict ss) .nil)) =
      .ok (Tree.dict (.cons k (.leaf t) .nil)) ∧
    keep_common_fields (Tree.dict (.cons k (.dict fs) .nil))
        (Tree.dict (.cons k (.leaf s) .nil)) =
      .error "AttributeError: keys" := by
  constructor
  · simp [keep_common_fields, keepFields, Fields.lookupF]
  · simp [keep_common_fields, keepFields, Fields.lookupF]

/-- C7: every `OodDetectionDataset`, whatever pair of datasets it binds,
reports `DatasetInfo` with `num_classes = 2`. -/
theorem c7_info_num_classes_two (d : OodDetectionDataset) :
    d.info.num_classes = 2 := rfl

/-- C10: `_set_label_to_one` and `_set_label_to_zero` overwrite exactly
the `label` entry — every other key keeps the exact value it had — and
the new label tensor keeps the previous label's dtype and shape. -/
theorem c10_set_label_frame (fs : Fields Tensor) (t : Tensor)
    (h : fs.lookupF "label" = some (.leaf t)) :
    set_label_to_one (.dict fs) =
      .ok (.dict (fs.updateF "label" (.leaf (tf_ones_like t)))) ∧
    set_label_to_zero (.dict fs) =
      .ok (.dict (fs.updateF "label" (.leaf (tf_zeros_like t)))) ∧
    (fs.updateF "label" (.leaf (tf_ones_like t))).lookupF "label" =
      some (.leaf (tf_ones_like t)) ∧
    (fs.updateF "label" (.leaf (tf_zeros_like t))).lookupF "label" =
      some (.leaf (tf_zeros_like t)) ∧
    (∀ k, k ≠ "label" →
      (fs.updateF "label" (.leaf (tf_ones_like t))).lookupF k = fs.lookupF k ∧
      (fs.updateF "label" (.leaf (tf_zeros_like t))).lookupF k = fs.lookupF k) ∧
    (tf_ones_like t).dtype = t.dtype ∧ (tf_ones_like t).shape = t.shape ∧
    (tf_zeros_like t).dtype = t.dtype ∧ (tf_zeros_like t).shape = t.shape := by
  refine ⟨?_, ?_, ?_, ?_, ?_, rfl, rfl, rfl, rfl⟩
  · simp [set_label_to_one, set_label_with, h, ones_like_value]
  · simp [set_label_to_zero, set_label_with, h, zeros_like_value]
  · exact lookupF_updateF_self fs "label" _ _ h
  · exact lookupF_updateF_self fs "label" _ _ h
  · exact fun k hk => ⟨lookupF_updateF_ne fs "label" k _ hk,
      lookupF_updateF_ne fs "label" k _ hk⟩

/-- C10, witness at the sample record with fields x and label. -/
theorem c10_set_label_frame_witness :
    set_label_to_one (.dict (.cons "x" (.leaf Samples.tX)
        (.cons "label" (.leaf Samples.tL) .nil))) =
      .ok (.dict ((Fields.cons "x" (.leaf Samples.tX)
        (.cons "label" (.leaf Samples.tL) .nil)).updateF "label"
          (.leaf (tf_ones_like Samples.tL)))) :=
  (c10_set_label_frame
    (.cons "x" (.leaf Samples.tX) (.cons "label" (.leaf Samples.tL) .nil))
    Samples.tL (by decide)).1

/-- C5: a successful composition emits exactly the relabelled-and-
filtered in-distribution records, in their order, followed by the
relabelled-and-filtered out-of-distribution records, in their order; and
the in-distribution prefix of the stream is independent of the second
source's records (only its element spec is consulted), which is the
extensional content of "the second source is not consumed until the
first is exhausted". -/
theorem c5_order_preservation (A B B' D D' : TfDataset)
    (h : concatenate_ds A B = .ok D) (h' : concatenate_ds A B' = .ok D')
    (hspec : B.elementSpec = B'.elementSpec) :
    (∃ ins outs,
        mapE (format_in_ds B.elementSpec) A.elems = .ok ins ∧
        mapE (format_out_ds A.elementSpec) B.elems = .ok outs ∧
        D.elems = ins ++ outs ∧ ins.length = A.elems.length ∧
        outs.length = B.elems.length) ∧
    D.elems.take A.elems.length = D'.elems.take A.elems.length := by
  obtain ⟨spec1, ins, outs, h1, h2, h3, h4, hD⟩ := concatenate_ds_ok A B D h
  obtain ⟨spec2, ins', outs', h1', h2', h3', h4', hD'⟩ :=
    concatenate_ds_ok A B' D' h'
  have hlen : ins.length = A.elems.length := mapE_ok_length _ _ _ h3
  have hlen' : ins'.length = A.elems.length := mapE_ok_length _ _ _ h3'
  have hins : ins' = ins := by
    rw [← hspec] at h3'
    rw [h3] at h3'
    exact (Except.ok.injEq _ _ ▸ h3').symm
  constructor
  · exact ⟨ins, outs, h3, h4, by rw [hD], hlen, mapE_ok_length _ _ _ h4⟩
  · rw [hD, hD']
    show (ins ++ outs).take A.elems.length = (ins' ++ outs').take A.elems.length
    rw [hins, ← hlen, List.take_left, List.take_left]

/-- C5, witness at a successful composition (with the two out-side
sources taken equal). -/
theorem c5_order_preservation_witness :
    (∃ ins outs,
        mapE (format_in_ds Samples.dsOkOut.elementSpec)
          Samples.dsOkIn.elems = .ok ins ∧
        mapE (format_out_ds Samples.dsOkIn.elementSpec)
          Samples.dsOkOut.elems = .ok outs ∧
        Samples.dsOkComposed.elems = ins ++ outs ∧
        ins.length = Samples.dsOkIn.elems.length ∧
        outs.length = Samples.dsOkOut.elems.length) ∧
    Samples.dsOkComposed.elems.take Samples.dsOkIn.elems.length =
      Samples.dsOkComposed.elems.take Samples.dsOkIn.elems.length :=
  c5_order_preservation Samples.dsOkIn Samples.dsOkOut Samples.dsOkOut
    Samples.dsOkComposed Samples.dsOkComposed rfl rfl rfl

/-- C6: in a successful composition, every record contributed by the
in-distribution source carries a `label` tensor whose entries are all 1,
and every record contributed by the out-of-distribution source carries a
`label` tensor whose entries are all 0. -/
theorem c6_label_correctness (A B D : TfDataset)
    (h : concatenate_ds A B = .ok D) :
    (∀ r ∈ D.elems.take A.elems.length, ∃ fs t, r = Tree.dict fs ∧
        fs.lookupF "label" = some (.leaf t) ∧ ∀ x ∈ t.data, x = 1) ∧
    (∀ r ∈ D.elems.drop A.elems.length, ∃ fs t, r = Tree.dict fs ∧
        fs.lookupF "label" = some (.leaf t) ∧ ∀ x ∈ t.data, x = 0) := by
  obtain ⟨spec', ins, outs, h1, h2, h3, h4, hD⟩ := concatenate_ds_ok A B D h
  obtain ⟨s1, hs1, hk1⟩ := format_in_trace_ok _ _ _ h1
  obtain ⟨s2, hs2, hk2⟩ := format_out_trace_ok _ _ _ h2
  obtain ⟨gsa, sa, hAspec, hlga, _⟩ := set_label_trace_ok _ _ hs1
  obtain ⟨gsb, sb, hBspec, hlgb, _⟩ := set_label_trace_ok _ _ hs2
  have hlen : ins.length = A.elems.length := mapE_ok_length _ _ _ h3
  have htake : D.elems.take A.elems.length = ins := by
    rw [hD]
    show (ins ++ outs).take A.elems.length = ins
    rw [← hlen, List.take_left]
  have hdrop : D.elems.drop A.elems.length = outs := by
    rw [hD]
    show (ins ++ outs).drop A.elems.length = outs
    rw [← hlen, List.drop_left]
  constructor
  · rw [htake]
    intro r hr
    obtain ⟨a, haA, hfa⟩ := mapE_ok_mem _ _ _ h3 r hr
    obtain ⟨f1, hone, hkeep⟩ := format_in_ds_ok _ _ _ hfa
    obtain ⟨fsa, t0, rfl, hla, rfl⟩ := set_label_to_one_ok _ _ hone
    rw [hBspec] at hkeep
    simp only [keep_common_fields] at hkeep
    cases hkf : keepFields (fsa.updateF "label" (.leaf (tf_ones_like t0))) gsb with
    | error e => rw [hkf] at hkeep; exact absurd hkeep (by simp)
    | ok kept =>
        rw [hkf] at hkeep
        simp only [Except.ok.injEq] at hkeep
        have hlu : (fsa.updateF "label" (.leaf (tf_ones_like t0))).lookupF
            "label" = some (.leaf (tf_ones_like t0)) :=
          lookupF_updateF_self fsa "label" _ _ hla
        obtain ⟨v', hkv, hlook⟩ :=
          keepF_lookup _ gsb kept "label" _ _ hkf hlu hlgb
        simp only [keep_common_fields, Except.ok.injEq] at hkv
        refine ⟨kept, tf_ones_like t0, hkeep.symm, ?_, ?_⟩
        · rw [hlook, ← hkv]
        · intro x hx
          have hx' : x ∈ t0.data.map (fun _ => (1 : ℚ)) := hx
          obtain ⟨y, hy, hxy⟩ := List.mem_map.mp hx'
          exact hxy.symm
  · rw [hdrop]
    intro r hr
    obtain ⟨a, haB, hfa⟩ := mapE_ok_mem _ _ _ h4 r hr
    obtain ⟨f1, hzero, hkeep⟩ := format_out_ds_ok _ _ _ hfa
    obtain ⟨fsb, t0, rfl, hla, rfl⟩ := set_label_to_zero_ok _ _ hzero
    rw [hAspec] at hkeep
    simp only [keep_common_fields] at hkeep
    cases hkf : keepFields (fsb.updateF "label" (.leaf (tf_zeros_like t0))) gsa with
    | error e => rw [hkf] at hkeep; exact absurd hkeep (by simp)
    | ok kept =>
        rw [hkf] at hkeep
        simp only [Except.ok.injEq] at hkeep
        have hlu : (fsb.updateF "label" (.leaf (tf_zeros_like t0))).lookupF
            "label" = some (.leaf (tf_zeros_like t0)) :=
          lookupF_updateF_self fsb "label" _ _ hla
        obtain ⟨v', hkv, hlook⟩ :=
          keepF_lookup _ gsa kept "label" _ _ hkf hlu hlga
        simp only [keep_common_fields, Except.ok.injEq] at hkv
        refine ⟨kept, tf_zeros_like t0, hkeep.symm, ?_, ?_⟩
        · rw [hlook, ← hkv]
        · intro x hx
          have hx' : x ∈ t0.data.map (fun _ => (0 : ℚ)) := hx
          obtain ⟨y, hy, hxy⟩ := List.mem_map.mp hx'
          exact hxy.symm

/-- C6, witness at a successful composition. -/
theorem c6_label_correctness_witness :
    (∀ r ∈ Samples.dsOkComposed.elems.take Samples.dsOkIn.elems.length,
       ∃ fs t, r = Tree.dict fs ∧
        fs.lookupF "label" = some (.leaf t) ∧ ∀ x ∈ t.data, x = 1) ∧
    (∀ r ∈ Samples.dsOkComposed.elems.drop Samples.dsOkIn.elems.length,
       ∃ fs t, r = Tree.dict fs ∧
        fs.lookupF "label" = some (.leaf t) ∧ ∀ x ∈ t.data, x = 0) :=
  c6_label_correctness Samples.dsOkIn Samples.dsOkOut Samples.dsOkComposed rfl

/-- C3: in a successful composition of well-formed sources (records
match their source's element spec in field structure, and no dict level
of the in-distribution spec repeats a key — the out side needs no such
hypothesis), every emitted record's field structure — at every
nesting depth — is exactly the recursive intersection, in the
specification's sense (`keyIntersect`), of the two post-label-synthesis
schemas. -/
theorem c3_schema_intersection (A B D : TfDataset)
    (h : concatenate_ds A B = .ok D)
    (hA : ∀ r ∈ A.elems, keyOf r = keyOf A.elementSpec)
    (hB : ∀ r ∈ B.elems, keyOf r = keyOf B.elementSpec)
    (hndA : nodupK A.elementSpec = true) :
    ∃ sIn sOut I,
      set_label_trace A.elementSpec = .ok sIn ∧
      set_label_trace B.elementSpec = .ok sOut ∧
      keyIntersect (keyOf sIn) (keyOf sOut) = some I ∧
      ∀ r ∈ D.elems, keyOf r = I := by
  obtain ⟨spec', ins, outs, h1, h2, h3, h4, hD⟩ := concatenate_ds_ok A B D h
  obtain ⟨s1, hs1, hk1⟩ := format_in_trace_ok _ _ _ h1
  obtain ⟨s2, hs2, hk2⟩ := format_out_trace_ok _ _ _ h2
  have hks1 : keyOf s1 = keyOf A.elementSpec :=
    set_label_with_keyOf like_spec like_spec_keyOf _ _ hs1
  have hks2 : keyOf s2 = keyOf B.elementSpec :=
    set_label_with_keyOf like_spec like_spec_keyOf _ _ hs2
  have hfwd : keep_common_fields (keyOf s1) (keyOf s2) = .ok (keyOf spec') := by
    have := keep_keyOf s1 B.elementSpec
    rw [hk1] at this
    rw [← hks2] at this
    simpa [Except.map] using this
  have hrev : keep_common_fields (keyOf s2) (keyOf s1) = .ok (keyOf spec') := by
    have := keep_keyOf s2 A.elementSpec
    rw [hk2] at this
    rw [← hks1] at this
    simpa [Except.map] using this
  have hnd1 : nodupK (keyOf s1) = true := by
    rw [hks1, nodupK_keyOf]
    exact hndA
  have hI : keyIntersect (keyOf s1) (keyOf s2) = some (keyOf spec') :=
    keep_intersect (keyOf s1) (keyOf s2) (keyOf spec') hnd1 hfwd
      ⟨keyOf spec', hrev⟩
  refine ⟨s1, s2, keyOf spec', hs1, hs2, hI, ?_⟩
  intro r hr
  rw [hD] at hr
  rcases List.mem_append.mp hr with hrin | hrout
  · obtain ⟨a, haA, hfa⟩ := mapE_ok_mem _ _ _ h3 r hrin
    obtain ⟨f1, hone, hkeep⟩ := format_in_ds_ok _ _ _ hfa
    have hkf1 : keyOf f1 = keyOf s1 := by
      rw [set_label_with_keyOf ones_like_value ones_like_value_keyOf _ _ hone,
        hA a haA, ← hks1]
    have hr1 := keep_keyOf f1 B.elementSpec
    rw [hkeep] at hr1
    rw [hkf1, ← hks2] at hr1
    rw [hfwd] at hr1
    simpa [Except.map] using hr1.symm
  · obtain ⟨a, haB, hfa⟩ := mapE_ok_mem _ _ _ h4 r hrout
    obtain ⟨f1, hzero, hkeep⟩ := format_out_ds_ok _ _ _ hfa
    have hkf1 : keyOf f1 = keyOf s2 := by
      rw [set_label_with_keyOf zeros_like_value zeros_like_value_keyOf _ _ hzero,
        hB a haB, ← hks2]
    have hr1 := keep_keyOf f1 A.elementSpec
    rw [hkeep] at hr1
    rw [hkf1, ← hks1] at hr1
    rw [hrev] at hr1
    simpa [Except.map] using hr1.symm

/-- C3, witness at a successful composition of well-formed sources. -/
theorem c3_schema_intersection_witness :
    ∃ sIn sOut I,
      set_label_trace Samples.dsOkIn.elementSpec = .ok sIn ∧
      set_label_trace Samples.dsOkOut.elementSpec = .ok sOut ∧
      keyIntersect (keyOf sIn) (keyOf sOut) = some I ∧
      ∀ r ∈ Samples.dsOkComposed.elems, keyOf r = I :=
  c3_schema_intersection Samples.dsOkIn Samples.dsOkOut Samples.dsOkComposed
    rfl (by decide) (by decide) (by decide)

/-! ### Lemmas about the diversity accumulator -/

namespace Diversity

theorem zipWith_map_same {α β γ δ : Type} (f : β → γ → δ) (g : α → β)
    (h : α → γ) (l : List α) :
    List.zipWith f (l.map g) (l.map h) = l.map fun x => f (g x) (h x) := by
  induction l with
  | nil => rfl
  | cons x xs ih => simp [ih]

/-- Inversion of a successful `add_batch`. -/
theorem add_batch_ok (log sqrt : ℚ → ℚ) (st : DiversityState)
    (probs : List (List (List ℚ))) (m : Nat) (st' : DiversityState)
    (h : add_batch log sqrt st probs m = .ok st') :
    2 ≤ m ∧ wellFormedBatch probs m = true ∧
    ¬(st.count ≠ 0 ∧ st.numModels ≠ m) ∧
    st' = ⟨m, st.count + batchCount probs,
      List.zipWith addTriple
        (if st.count = 0 then
          (allPairs m).map fun _ => ((0 : ℚ), (0 : ℚ), (0 : ℚ))
        else st.sums)
        ((allPairs m).map (pairContrib log sqrt probs))⟩ := by
  rw [add_batch] at h
  split at h
  · exact absurd h (by simp)
  · split at h
    · exact absurd h (by simp)
    · split at h
      · exact absurd h (by simp)
      · rename_i h1 h2 h3
        refine ⟨by omega, by revert h2; cases wellFormedBatch probs m <;> simp,
          h3, ?_⟩
        simp only [Except.ok.injEq] at h
        exact h.symm

theorem wellFormedBatch_length (probs : List (List (List ℚ))) (m : Nat)
    (h : wellFormedBatch probs m = true) : probs.length = m := by
  simp [wellFormedBatch] at h
  exact h.1

theorem wellFormedBatch_members (probs : List (List (List ℚ))) (m : Nat)
    (h : wellFormedBatch probs m = true) :
    ∀ mem ∈ probs, mem.length = batchCount probs := by
  simp [wellFormedBatch] at h
  exact fun mem hm => (h.2 mem hm).1

theorem getD_length (probs : List (List (List ℚ))) (m i : Nat)
    (hwf : wellFormedBatch probs m = true) (hi : i < m) :
    (probs.getD i []).length = batchCount probs := by
  have hl := wellFormedBatch_length probs m hwf
  have hi' : i < probs.length := by omega
  rw [List.getD_eq_getElem _ _ hi']
  exact wellFormedBatch_members probs m hwf _ (List.getElem_mem hi')

theorem getD_empty (probs : List (List (List ℚ))) (m : Nat)
    (hwf : wellFormedBatch probs m = true) (hc : batchCount probs = 0)
    (i : Nat) : probs.getD i [] = [] := by
  rcases Nat.lt_or_ge i probs.length with hlt | hge
  · rw [List.getD_eq_getElem _ _ hlt]
    have := wellFormedBatch_members probs m hwf _ (List.getElem_mem hlt)
    rw [hc] at this
    exact List.length_eq_zero.mp this
  · exact List.getD_eq_default _ _ hge

/-- A batch with no examples contributes nothing to any pair. -/
theorem pairContrib_zero (log sqrt : ℚ → ℚ) (probs : List (List (List ℚ)))
    (m : Nat) (ij : Nat × Nat) (hwf : wellFormedBatch probs m = true)
    (hc : batchCount probs = 0) :
    pairContrib log sqrt probs ij = (0, 0, 0) := by
  simp only [pairContrib]
  rw [getD_empty probs m hwf hc ij.1, getD_empty probs m hwf hc ij.2]
  simp

theorem mem_allPairs_lt (m : Nat) (ij : Nat × Nat) (h : ij ∈ allPairs m) :
    ij.1 < m ∧ ij.2 < m := by
  simp [allPairs] at h
  obtain ⟨i, hi, j, hj, hlt, heq⟩ := h
  rw [← heq]
  exact ⟨hi, hj⟩

theorem concatAll_length (m : Nat) :
    ∀ (bs : List (List (List (List ℚ)))), bs ≠ [] →
      (∀ b ∈ bs, b.length = m) → (concatAll bs).length = m
  | [], hne, _ => absurd rfl hne
  | [b], _, hlen => by simp [concatAll, hlen b (by simp)]
  | b :: b2 :: bs, _, hlen => by
      have ih := concatAll_length m (b2 :: bs) (by simp)
        (fun x hx => hlen x (List.mem_cons_of_mem b hx))
      show (concatBatch b (concatAll (b2 :: bs))).length = m
      simp [concatBatch, ih, hlen b (by simp)]

/-- Each member slice of the concatenation is the concatenation of the
member slices. -/
theorem concatAll_getD (m i : Nat) (hi : i < m) :
    ∀ (bs : List (List (List (List ℚ)))), bs ≠ [] →
      (∀ b ∈ bs, b.length = m) →
      (concatAll bs).getD i [] = (bs.map fun b => b.getD i []).flatten
  | [], hne, _ => absurd rfl hne
  | [b], _, hlen => by simp [concatAll]
  | b :: b2 :: bs, _, hlen => by
      have ih := concatAll_getD m i hi (b2 :: bs) (by simp)
        (fun x hx => hlen x (List.mem_cons_of_mem b hx))
      have htl : (concatAll (b2 :: bs)).length = m :=
        concatAll_length m (b2 :: bs) (by simp)
          (fun x hx => hlen x (List.mem_cons_of_mem b hx))
      have hb : i < b.length := by rw [hlen b (by simp)]; exact hi
      have hc : i < (concatAll (b2 :: bs)).length := by rw [htl]; exact hi
      show (concatBatch b (concatAll (b2 :: bs))).getD i [] = _
      have hzl : i < (concatBatch b (concatAll (b2 :: bs))).length := by
        simp [concatBatch]
        omega
      rw [List.getD_eq_getElem _ _ hzl]
      simp only [concatBatch]
      rw [List.getElem_zipWith]
      rw [← List.getD_eq_getElem b ([] : List (List ℚ)) hb,
        ← List.getD_eq_getElem (concatAll (b2 :: bs)) ([] : List (List ℚ)) hc,
        ih]
      simp

theorem concatBatch_getD (b c : List (List (List ℚ))) (i : Nat)
    (hb : i < b.length) (hc : i < c.length) :
    (concatBatch b c).getD i [] = b.getD i [] ++ c.getD i [] := by
  have hz : i < (concatBatch b c).length := by
    simp [concatBatch]
    omega
  rw [List.getD_eq_getElem (concatBatch b c) ([] : List (List ℚ)) hz]
  simp only [concatBatch]
  rw [List.getElem_zipWith,
    ← List.getD_eq_getElem b ([] : List (List ℚ)) hb,
    ← List.getD_eq_getElem c ([] : List (List ℚ)) hc]

theorem headD_eq_getD (x : List (List (List ℚ))) : x.headD [] = x.getD 0 [] := by
  cases x <;> rfl

theorem batchCount_concatAll (m : Nat) (bs : List (List (List (List ℚ))))
    (hne : bs ≠ []) (hwf : ∀ b ∈ bs, wellFormedBatch b m = true)
    (hm : 0 < m) :
    batchCount (concatAll bs) = (bs.map batchCount).sum := by
  have hlen : ∀ b ∈ bs, b.length = m :=
    fun b hb => wellFormedBatch_length b m (hwf b hb)
  rw [batchCount, headD_eq_getD, concatAll_getD m 0 hm bs hne hlen,
    List.length_flatten, List.map_map]
  apply congrArg
  apply List.map_congr_left
  intro b hb
  exact getD_length b m 0 (hwf b hb) hm

/-- The contributions of a pair over a concatenated batch are the sums
of the contributions over the parts. -/
theorem pairContrib_concatAll (log sqrt : ℚ → ℚ) (m : Nat) (ij : Nat × Nat)
    (hij1 : ij.1 < m) (hij2 : ij.2 < m) :
    ∀ bs, bs ≠ [] → (∀ b ∈ bs, wellFormedBatch b m = true) →
      pairContrib log sqrt (concatAll bs) ij = contribSums log sqrt bs ij
  | [], hne, _ => absurd rfl hne
  | [b], _, hwf => by
      show pairContrib log sqrt b ij = contribSums log sqrt [b] ij
      simp [contribSums]
  | b :: b2 :: bs, _, hwf => by
      have hwb := hwf b (by simp)
      have hrest : ∀ x ∈ b2 :: bs, wellFormedBatch x m = true :=
        fun x hx => hwf x (List.mem_cons_of_mem b hx)
      have ih := pairContrib_concatAll log sqrt m ij hij1 hij2 (b2 :: bs)
        (by simp) hrest
      have hlb := wellFormedBatch_length b m hwb
      have hlc : (concatAll (b2 :: bs)).length = m :=
        concatAll_length m (b2 :: bs) (by simp)
          (fun x hx => wellFormedBatch_length x m (hrest x hx))
      have e1 := concatBatch_getD b (concatAll (b2 :: bs)) ij.1
        (by omega) (by omega)
      have e2 := concatBatch_getD b (concatAll (b2 :: bs)) ij.2
        (by omega) (by omega)
      have hlen12 : (b.getD ij.1 []).length = (b.getD ij.2 []).length := by
        rw [getD_length b m ij.1 hwb hij1, getD_length b m ij.2 hwb hij2]
      show pairContrib log sqrt (concatBatch b (concatAll (b2 :: bs))) ij =
        contribSums log sqrt (b :: b2 :: bs) ij
      have hzip : ((concatBatch b (concatAll (b2 :: bs))).getD ij.1 []).zip
          ((concatBatch b (concatAll (b2 :: bs))).getD ij.2 []) =
          ((b.getD ij.1 []).zip (b.getD ij.2 [])) ++
          (((concatAll (b2 :: bs)).getD ij.1 []).zip
            ((concatAll (b2 :: bs)).getD ij.2 [])) := by
        rw [e1, e2, List.zip_append hlen12]
      rw [Prod.ext_iff] at ih
      rw [Prod.ext_iff] at ih
      obtain ⟨ih1, ih2, ih3⟩ := ih
      simp only [pairContrib, contribSums] at ih1 ih2 ih3 ⊢
      rw [hzip]
      simp only [List.map_append, List.sum_append, List.map_cons,
        List.sum_cons]
      rw [ih1, ih2, ih3]
      simp only [List.map_cons, List.sum_cons]

theorem contribSums_append_single (log sqrt : ℚ → ℚ)
    (cs : List (List (List (List ℚ)))) (b : List (List (List ℚ)))
    (ij : Nat × Nat) :
    contribSums log sqrt (cs ++ [b]) ij =
      addTriple (contribSums log sqrt cs ij) (pairContrib log sqrt b ij) := by
  simp [contribSums, addTriple, List.map_append, List.sum_append]

/-- When no example has been seen, the accumulated per-pair sums are all
zero (the state machine's re-zeroing of the `sums` buffer is harmless). -/
theorem base_sums_zero (log sqrt : ℚ → ℚ) (m : Nat)
    (cs : List (List (List (List ℚ))))
    (hcs : ∀ c ∈ cs, wellFormedBatch c m = true)
    (h0 : (cs.map batchCount).sum = 0) :
    ((allPairs m).map fun _ => ((0 : ℚ), (0 : ℚ), (0 : ℚ))) =
      (allPairs m).map (contribSums log sqrt cs) := by
  apply List.map_congr_left
  intro ij _
  have hz : ∀ c ∈ cs, batchCount c = 0 := by
    intro c hc
    exact Nat.eq_zero_of_le_zero (h0 ▸ List.le_sum_of_mem
      (List.mem_map.mpr ⟨c, hc, rfl⟩))
  have : ∀ c ∈ cs, pairContrib log sqrt c ij = (0, 0, 0) :=
    fun c hc => pairContrib_zero log sqrt c m ij (hcs c hc) (hz c hc)
  simp only [contribSums]
  rw [List.sum_eq_zero, List.sum_eq_zero, List.sum_eq_zero]
  · intro x hx
    obtain ⟨c, hc, rfl⟩ := List.mem_map.mp hx
    rw [this c hc]
  · intro x hx
    obtain ⟨c, hc, rfl⟩ := List.mem_map.mp hx
    rw [this c hc]
  · intro x hx
    obtain ⟨c, hc, rfl⟩ := List.mem_map.mp hx
    rw [this c hc]

/-- One `add_batch` step moves a canonical state to the canonical state
of one more batch. -/
theorem canonical_step (log sqrt : ℚ → ℚ) (m : Nat)
    (cs : List (List (List (List ℚ)))) (b : List (List (List ℚ)))
    (hcs : ∀ c ∈ cs, wellFormedBatch c m = true) :
    (DiversityState.mk m ((cs.map batchCount).sum + batchCount b)
      (List.zipWith addTriple
        (if (cs.map batchCount).sum = 0 then
          (allPairs m).map fun _ => ((0 : ℚ), (0 : ℚ), (0 : ℚ))
        else (allPairs m).map (contribSums log sqrt cs))
        ((allPairs m).map (pairContrib log sqrt b)))) =
      canonicalState log sqrt m (cs ++ [b]) := by
  have hbase : (if (cs.map batchCount).sum = 0 then
      (allPairs m).map fun _ => ((0 : ℚ), (0 : ℚ), (0 : ℚ))
    else (allPairs m).map (contribSums log sqrt cs)) =
      (allPairs m).map (contribSums log sqrt cs) := by
    split
    · rename_i h0
      exact base_sums_zero log sqrt m cs hcs h0
    · rfl
  rw [hbase, zipWith_map_same]
  unfold canonicalState
  congr 1
  · simp
  · apply List.map_congr_left
    intro ij _
    rw [contribSums_append_single]

/-- The very first successful `add_batch` reaches the canonical state of
a single batch. -/
theorem add_from_empty (log sqrt : ℚ → ℚ) (m : Nat)
    (b : List (List (List ℚ))) (st1 : DiversityState)
    (h : add_batch log sqrt emptyState b m = .ok st1) :
    st1 = canonicalState log sqrt m [b] ∧ 2 ≤ m ∧
      wellFormedBatch b m = true := by
  obtain ⟨hm2, hwb, _, hst⟩ := add_batch_ok log sqrt emptyState b m st1 h
  refine ⟨?_, hm2, hwb⟩
  rw [hst]
  simp only [emptyState, if_true]
  rw [zipWith_map_same]
  unfold canonicalState
  congr 1
  · simp
  · apply List.map_congr_left
    intro ij _
    simp [addTriple, contribSums]

/-- Feeding batches from a canonical state stays canonical. -/
theorem feed_from_canonical (log sqrt : ℚ → ℚ) (m : Nat) :
    ∀ (bs cs : List (List (List (List ℚ)))) (st' : DiversityState),
      cs ≠ [] → (∀ c ∈ cs, wellFormedBatch c m = true) →
      feedBatches log sqrt m (canonicalState log sqrt m cs) bs = .ok st' →
      st' = canonicalState log sqrt m (cs ++ bs) ∧
        ∀ b ∈ bs, wellFormedBatch b m = true
  | [], cs, st', hne, hcs, h => by
      simp only [feedBatches, Except.ok.injEq] at h
      exact ⟨by rw [← h]; simp, by simp⟩
  | b :: bs, cs, st', hne, hcs, h => by
      rw [feedBatches] at h
      cases hadd : add_batch log sqrt (canonicalState log sqrt m cs) b m with
      | error e => rw [hadd] at h; exact absurd h (by simp)
      | ok st1 =>
          rw [hadd] at h
          obtain ⟨hm2, hwb, hchk, hst1⟩ :=
            add_batch_ok log sqrt (canonicalState log sqrt m cs) b m st1 hadd
          have hstep : st1 = canonicalState log sqrt m (cs ++ [b]) := by
            rw [hst1]
            exact canonical_step log sqrt m cs b hcs
          rw [hstep] at h
          have hcs' : ∀ c ∈ cs ++ [b], wellFormedBatch c m = true := by
            intro c hc
            rcases List.mem_append.mp hc with hc' | hc'
            · exact hcs c hc'
            · simp at hc'
              rw [hc']
              exact hwb
          obtain ⟨h1, h2⟩ := feed_from_canonical log sqrt m bs (cs ++ [b])
            st' (by simp) hcs' h
          rw [List.append_assoc] at h1
          refine ⟨h1, ?_⟩
          intro x hx
          rcases List.mem_cons.mp hx with rfl | hx'
          · exact hwb
          · exact h2 x hx'

/-- Forward success of `add_batch` on a well-formed batch. -/
theorem add_batch_succeeds (log sqrt : ℚ → ℚ) (st : DiversityState)
    (probs : List (List (List ℚ))) (m : Nat) (hm : 2 ≤ m)
    (hwf : wellFormedBatch probs m = true)
    (hst : st.count = 0 ∨ st.numModels = m) :
    ∃ st', add_batch log sqrt st probs m = .ok st' := by
  rw [add_batch, if_neg (by omega), hwf, if_neg (by simp), if_neg ?_]
  · exact ⟨_, rfl⟩
  · rcases hst with h | h
    · exact fun hc => hc.1 h
    · exact fun hc => hc.2 h

/-- Forward success of `feedBatches` on well-formed batches. -/
theorem feedBatches_succeeds (log sqrt : ℚ → ℚ) (m : Nat) :
    ∀ (bs : List (List (List (List ℚ)))) (st : DiversityState), 2 ≤ m →
      (∀ b ∈ bs, wellFormedBatch b m = true) →
      (st.count = 0 ∨ st.numModels = m) →
      ∃ st', feedBatches log sqrt m st bs = .ok st'
  | [], st, _, _, _ => ⟨st, rfl⟩
  | b :: bs, st, hm, hwf, hst => by
      obtain ⟨st1, hadd⟩ := add_batch_succeeds log sqrt st b m hm
        (hwf b (by simp)) hst
      have hnm : st1.numModels = m := by
        obtain ⟨-, -, -, hst1⟩ := add_batch_ok log sqrt st b m st1 hadd
        rw [hst1]
      obtain ⟨st', hfeed⟩ := feedBatches_succeeds log sqrt m bs st1 hm
        (fun x hx => hwf x (List.mem_cons_of_mem _ hx)) (Or.inr hnm)
      exact ⟨st', by rw [feedBatches, hadd]; exact hfeed⟩

/-- Unfolding one step of `feedBatches` along a successful `add_batch`. -/
theorem feedBatches_cons_ok (log sqrt : ℚ → ℚ) (m : Nat)
    (st : DiversityState) (b : List (List (List ℚ)))
    (bs : List (List (List (List ℚ)))) (st1 : DiversityState)
    (h : add_batch log sqrt st b m = .ok st1) :
    feedBatches log sqrt m st (b :: bs) = feedBatches log sqrt m st1 bs := by
  rw [feedBatches, h]

/-- C8: for a fixed collection of examples, feeding the accumulator one
`add_batch` call per batch — whatever the partition and grouping of the
examples into batches — produces the same `result()` as feeding all
examples in a single batch (exactly, since the model computes in ℚ; the
claim's floating-point tolerance is subsumed by equality).  Both runs are
assumed to succeed, which provides the shape checks. -/
theorem c8_batch_invariance (log sqrt : ℚ → ℚ) (m : Nat)
    (bs : List (List (List (List ℚ)))) (st1 st2 : DiversityState)
    (hne : bs ≠ [])
    (h1 : feedBatches log sqrt m emptyState bs = .ok st1)
    (h2 : add_batch log sqrt emptyState (concatAll bs) m = .ok st2) :
    result st1 = result st2 := by
  obtain ⟨b, bs', rfl⟩ := List.exists_cons_of_ne_nil hne
  rw [feedBatches] at h1
  cases hadd : add_batch log sqrt emptyState b m with
  | error e => rw [hadd] at h1; exact absurd h1 (by simp)
  | ok st0 =>
      rw [hadd] at h1
      obtain ⟨hst0, hm2, hwb⟩ := add_from_empty log sqrt m b st0 hadd
      rw [hst0] at h1
      obtain ⟨hst1, hwbs⟩ := feed_from_canonical log sqrt m bs' [b] st1
        (by simp) (by intro c hc; simp at hc; rw [hc]; exact hwb) h1
      obtain ⟨hst2, _, _⟩ :=
        add_from_empty log sqrt m (concatAll (b :: bs')) st2 h2
      have hwfall : ∀ x ∈ b :: bs', wellFormedBatch x m = true := by
        intro x hx
        rcases List.mem_cons.mp hx with rfl | hx'
        · exact hwb
        · exact hwbs x hx'
      have hstates : canonicalState log sqrt m ([b] ++ bs') =
          canonicalState log sqrt m [concatAll (b :: bs')] := by
        unfold canonicalState
        congr 1
        · show ((b :: bs').map batchCount).sum =
            (([concatAll (b :: bs')]).map batchCount).sum
          simp only [List.map_cons, List.map_nil, List.sum_cons, List.sum_nil]
          rw [batchCount_concatAll m (b :: bs') (by simp) hwfall (by omega)]
          simp
        · apply List.map_congr_left
          intro ij hij
          obtain ⟨hi, hj⟩ := mem_allPairs_lt m ij hij
          have hp := pairContrib_concatAll log sqrt m ij hi hj (b :: bs')
            (by simp) hwfall
          show contribSums log sqrt (b :: bs') ij = _
          rw [← hp]
          simp [contribSums]
      rw [hst1, hst2, hstates]

/-- C8, witness: two singleton batches of a 2-member ensemble versus the
combined 2-example batch. -/
theorem c8_batch_invariance_witness :
    result (canonicalState (fun _ => (0 : ℚ)) (fun _ => (0 : ℚ)) 2
        [[[[(1 : ℚ)/2, 1/2]], [[1/2, 1/2]]], [[[1, 0]], [[0, 1]]]]) =
      result (canonicalState (fun _ => (0 : ℚ)) (fun _ => (0 : ℚ)) 2
        [concatAll [[[[(1 : ℚ)/2, 1/2]], [[1/2, 1/2]]], [[[1, 0]], [[0, 1]]]]]) := by
  have hwf1 : wellFormedBatch [[[(1 : ℚ)/2, 1/2]], [[1/2, 1/2]]] 2 = true := by
    simp [wellFormedBatch, batchCount]
    norm_num
  have hwf2 : wellFormedBatch [[[(1 : ℚ), 0]], [[0, 1]]] 2 = true := by
    simp [wellFormedBatch, batchCount]
  have hwfc : wellFormedBatch
      (concatAll [[[[(1 : ℚ)/2, 1/2]], [[1/2, 1/2]]], [[[1, 0]], [[0, 1]]]])
      2 = true := by
    show wellFormedBatch
      (concatBatch [[[(1 : ℚ)/2, 1/2]], [[1/2, 1/2]]] [[[1, 0]], [[0, 1]]]) 2 = true
    simp [concatBatch, wellFormedBatch, batchCount]
    norm_num
  obtain ⟨st0, hadd1⟩ := add_batch_succeeds (fun _ => 0) (fun _ => 0)
    emptyState [[[(1 : ℚ)/2, 1/2]], [[1/2, 1/2]]] 2 (by omega) hwf1
    (Or.inl rfl)
  obtain ⟨hst0, -, -⟩ := add_from_empty _ _ _ _ _ hadd1
  obtain ⟨st', hfeed⟩ := feedBatches_succeeds (fun _ => 0) (fun _ => 0) 2
    [[[[(1 : ℚ), 0]], [[0, 1]]]] st0 (by omega)
    (by intro x hx; rw [List.mem_singleton] at hx; rw [hx]; exact hwf2)
    (Or.inr (by rw [hst0]; rfl))
  rw [hst0] at hfeed
  obtain ⟨hst', -⟩ := feed_from_canonical (fun _ => 0) (fun _ => 0) 2
    [[[[(1 : ℚ), 0]], [[0, 1]]]] [[[[(1 : ℚ)/2, 1/2]], [[1/2, 1/2]]]] st'
    (by simp) (by intro c hc; rw [List.mem_singleton] at hc; rw [hc]; exact hwf1)
    hfeed
  have h1 : feedBatches (fun _ => 0) (fun _ => 0) 2 emptyState
      [[[[(1 : ℚ)/2, 1/2]], [[1/2, 1/2]]], [[[1, 0]], [[0, 1]]]] =
      .ok (canonicalState (fun _ => (0 : ℚ)) (fun _ => (0 : ℚ)) 2
        [[[[(1 : ℚ)/2, 1/2]], [[1/2, 1/2]]], [[[1, 0]], [[0, 1]]]]) := by
    rw [feedBatches_cons_ok _ _ _ _ _ _ _ hadd1, hst0, hfeed, hst']
    rfl
  obtain ⟨st2, hadd2⟩ := add_batch_succeeds (fun _ => 0) (fun _ => 0)
    emptyState
    (concatAll [[[[(1 : ℚ)/2, 1/2]], [[1/2, 1/2]]], [[[1, 0]], [[0, 1]]]]) 2
    (by omega) hwfc (Or.inl rfl)
  obtain ⟨hst2, -, -⟩ := add_from_empty _ _ _ _ _ hadd2
  rw [hst2] at hadd2
  exact c8_batch_invariance (fun _ => 0) (fun _ => 0) 2
    [[[[(1 : ℚ)/2, 1/2]], [[1/2, 1/2]]], [[[1, 0]], [[0, 1]]]] _ _
    (by simp) h1 hadd2

/-- C9: after any sequence of `add_batch` calls — indeed in every
reachable or unreachable accumulator state — `result()` is a mapping
with exactly the keys disagreement, average_kl and cosine_similarity, in
that order, each bound to a single rational scalar. -/
theorem c9_result_keys (st : DiversityState) :
    (result st).map Prod.fst =
      ["disagreement", "average_kl", "cosine_similarity"] := rfl

end Diversity

end RobustnessMetrics
